import Mathlib

/-!
# UniConnect — verification of the real-time messaging / presence / revocation core

Shallow embedding of the messaging and presence subsystem of the UniConnect
backend (`backend/server.mjs` plus the chat/message routes and controllers).
JavaScript `Map`s are modelled as association lists with JS `Map` semantics
(`set` replaces the value of an existing key, otherwise appends; `delete`
removes the key), JS `Set`s as duplicate-free lists (`add` is a no-op on a
present element, `delete` removes it), and timestamps as natural numbers
(milliseconds).  Each route handler is translated into a pure function over
an explicit store, returning its HTTP-level result and, where relevant, the
ordered trace of its side effects (persist / update / socket emit).
-/

namespace UniConnect

/-! ## Presence tracker (`onlineUsers`, `addPresence`, `removePresence` in server.mjs) -/

abbrev UserId := String
abbrev SessionId := String

/-- A JS `Map` from user id to the `Set` of that user's live socket ids,
modelled as an association list in insertion order. -/
abbrev PresenceMap := List (UserId × List SessionId)

/-- JS `Set.prototype.add`: no-op when the element is present. -/
def setAdd (s : List SessionId) (x : SessionId) : List SessionId :=
  if x ∈ s then s else s ++ [x]

/-- JS `Set.prototype.delete`. -/
def setDelete (s : List SessionId) (x : SessionId) : List SessionId :=
  s.filter (fun y => y ≠ x)

/-- JS `Map.prototype.has`. -/
def mapHas : PresenceMap → UserId → Bool
  | [], _ => false
  | e :: m, u => e.1 == u || mapHas m u

/-- JS `Map.prototype.get`, with the empty set standing for `undefined`
(the code only calls `get` under a `has` guard). -/
def mapGet : PresenceMap → UserId → List SessionId
  | [], _ => []
  | e :: m, u => if e.1 = u then e.2 else mapGet m u

/-- JS `Map.prototype.set`: overwrite the value at an existing key, else append. -/
def mapSet (m : PresenceMap) (u : UserId) (v : List SessionId) : PresenceMap :=
  if mapHas m u then m.map (fun e => if e.1 = u then (u, v) else e) else m ++ [(u, v)]

/-- JS `Map.prototype.delete`. -/
def mapDelete (m : PresenceMap) (u : UserId) : PresenceMap :=
  m.filter (fun e => e.1 ≠ u)

/-- `addPresence` from server.mjs: ensure the key has a set, then add the socket id. -/
def addPresence (m : PresenceMap) (u : UserId) (s : SessionId) : PresenceMap :=
  mapSet (if mapHas m u then m else mapSet m u [])
    u (setAdd (mapGet (if mapHas m u then m else mapSet m u []) u) s)

/-- `removePresence` from server.mjs: delete the socket id; drop the key when
the set becomes empty. -/
def removePresence (m : PresenceMap) (u : UserId) (s : SessionId) : PresenceMap :=
  if mapHas m u then
    if setDelete (mapGet m u) s = [] then mapDelete m u
    else mapSet m u (setDelete (mapGet m u) s)
  else m

/-- A connect / disconnect event as seen by the `io.on("connection")` handler:
a connection calls `addPresence`, a disconnect calls `removePresence`. -/
inductive PEvent where
  | connect (u : UserId) (s : SessionId)
  | disconnect (u : UserId) (s : SessionId)
deriving DecidableEq, Repr

def applyEvent (m : PresenceMap) : PEvent → PresenceMap
  | .connect u s => addPresence m u s
  | .disconnect u s => removePresence m u s

def applyEvents (m : PresenceMap) (es : List PEvent) : PresenceMap :=
  es.foldl applyEvent m

/-- "User is online" as the code reads it: the key exists in `onlineUsers`
(`onlineUsers.keys()` drives both `presence:update` and `/chats/online`). -/
def isOnline (m : PresenceMap) (u : UserId) : Bool :=
  mapHas m u

/-- The presence invariant: every key maps to a non-empty session set. -/
def PresenceInv (m : PresenceMap) : Prop :=
  ∀ e ∈ m, e.2 ≠ []

theorem mapHas_eq_false_iff {m : PresenceMap} {u : UserId} :
    mapHas m u = false ↔ ∀ e ∈ m, e.1 ≠ u := by
  induction m with
  | nil => simp [mapHas]
  | cons e t ih => simp [mapHas, ih]

theorem mapGet_eq_nil_of_mapHas {m : PresenceMap} {u : UserId}
    (h : mapHas m u = false) : mapGet m u = [] := by
  induction m with
  | nil => rfl
  | cons e t ih =>
    simp only [mapHas, Bool.or_eq_false_iff, beq_eq_false_iff_ne, ne_eq] at h
    simp [mapGet, h.1, ih h.2]

theorem mapHas_append (l1 l2 : PresenceMap) (u : UserId) :
    mapHas (l1 ++ l2) u = (mapHas l1 u || mapHas l2 u) := by
  induction l1 with
  | nil => simp [mapHas]
  | cons e t ih => simp [mapHas, ih, Bool.or_assoc]

theorem mapGet_append (l1 l2 : PresenceMap) (u : UserId) :
    mapGet (l1 ++ l2) u = if mapHas l1 u then mapGet l1 u else mapGet l2 u := by
  induction l1 with
  | nil => simp [mapHas, mapGet]
  | cons e t ih =>
    by_cases he : e.1 = u
    · simp [mapGet, mapHas, he]
    · simp [mapGet, mapHas, he, ih]

theorem mapHas_replace (m : PresenceMap) (u : UserId) (v : List SessionId) (w : UserId) :
    mapHas (m.map (fun e => if e.1 = u then (u, v) else e)) w = mapHas m w := by
  induction m with
  | nil => rfl
  | cons e t ih =>
    by_cases he : e.1 = u
    · simp [mapHas, he, ih]
    · simp [mapHas, he, ih]

theorem mapGet_replace_self {m : PresenceMap} {u : UserId} (v : List SessionId)
    (h : mapHas m u = true) :
    mapGet (m.map (fun e => if e.1 = u then (u, v) else e)) u = v := by
  induction m with
  | nil => simp [mapHas] at h
  | cons e t ih =>
    by_cases he : e.1 = u
    · simp [mapGet, he]
    · simp only [mapHas, Bool.or_eq_true, beq_iff_eq, he, false_or] at h
      simp [mapGet, he, ih h]

theorem mapGet_replace_other {m : PresenceMap} {u w : UserId} (v : List SessionId)
    (h : w ≠ u) :
    mapGet (m.map (fun e => if e.1 = u then (u, v) else e)) w = mapGet m w := by
  induction m with
  | nil => rfl
  | cons e t ih =>
    by_cases he : e.1 = u
    · have hw : ¬ e.1 = w := fun hh => h (by rw [← hh, he])
      simp [mapGet, he, Ne.symm h, hw, ih]
    · simp [mapGet, he, ih]

theorem mapHas_mapSet_self (m : PresenceMap) (u : UserId) (v : List SessionId) :
    mapHas (mapSet m u v) u = true := by
  unfold mapSet
  split
  · rename_i h
    simpa [mapHas_replace]
  · simp [mapHas_append, mapHas]

theorem mapGet_mapSet_self (m : PresenceMap) (u : UserId) (v : List SessionId) :
    mapGet (mapSet m u v) u = v := by
  unfold mapSet
  split
  · rename_i h
    exact mapGet_replace_self v h
  · rename_i h
    simp [mapGet_append, h, mapGet]

theorem mapGet_mapSet_other (m : PresenceMap) {u w : UserId} (v : List SessionId)
    (h : w ≠ u) : mapGet (mapSet m u v) w = mapGet m w := by
  unfold mapSet
  split
  · exact mapGet_replace_other v h
  · rename_i hh
    simp only [mapGet_append]
    split
    · rfl
    · rename_i hw
      simp only [Bool.not_eq_true] at hw
      simp [mapGet, Ne.symm h, mapGet_eq_nil_of_mapHas hw]

theorem mapGet_mapDelete_other (m : PresenceMap) {u w : UserId} (h : w ≠ u) :
    mapGet (mapDelete m u) w = mapGet m w := by
  induction m with
  | nil => rfl
  | cons e t ih =>
    simp only [mapDelete, ne_eq, decide_not] at ih ⊢
    by_cases he : e.1 = u
    · have hw : ¬ e.1 = w := fun hh => h (by rw [← hh, he])
      simp [List.filter_cons, he, mapGet, hw, Ne.symm h, ih]
    · by_cases hw : e.1 = w
      · simp [List.filter_cons, he, mapGet, hw, h, ih]
      · simp [List.filter_cons, he, mapGet, hw, ih]

theorem mapHas_mapDelete_self (m : PresenceMap) (u : UserId) :
    mapHas (mapDelete m u) u = false := by
  induction m with
  | nil => rfl
  | cons e t ih =>
    simp only [mapDelete, ne_eq, decide_not] at ih ⊢
    by_cases he : e.1 = u
    · simpa [List.filter_cons, he] using ih
    · simp [List.filter_cons, he, mapHas, ih]

theorem mapGet_mapDelete_self (m : PresenceMap) (u : UserId) :
    mapGet (mapDelete m u) u = [] :=
  mapGet_eq_nil_of_mapHas (mapHas_mapDelete_self m u)

theorem mapHas_exists_entry {m : PresenceMap} {u : UserId} (h : mapHas m u = true) :
    ∃ e ∈ m, e.1 = u ∧ mapGet m u = e.2 := by
  induction m with
  | nil => simp [mapHas] at h
  | cons e t ih =>
    by_cases he : e.1 = u
    · exact ⟨e, List.mem_cons_self e t, he, by simp [mapGet, he]⟩
    · simp only [mapHas, Bool.or_eq_true, beq_iff_eq, he, false_or] at h
      obtain ⟨a, ha, ha1, ha2⟩ := ih h
      exact ⟨a, List.mem_cons_of_mem e ha, ha1, by simp [mapGet, he, ha2]⟩

theorem setAdd_ne_nil (s : List SessionId) (x : SessionId) : setAdd s x ≠ [] := by
  unfold setAdd
  split
  · intro h
    subst h
    simp_all
  · simp

theorem mem_mapSet {m : PresenceMap} {u : UserId} {v : List SessionId}
    {e : UserId × List SessionId} (he : e ∈ mapSet m u v) :
    e = (u, v) ∨ (e ∈ m ∧ e.1 ≠ u) := by
  unfold mapSet at he
  split at he
  · rcases List.mem_map.1 he with ⟨a, ha, hae⟩
    by_cases h : a.1 = u
    · simp only [if_pos h] at hae
      exact Or.inl hae.symm
    · simp only [if_neg h] at hae
      exact Or.inr ⟨hae ▸ ha, hae ▸ h⟩
  · rcases List.mem_append.1 he with h | h
    · rename_i hhas
      refine Or.inr ⟨h, fun hk => ?_⟩
      simp only [Bool.not_eq_true] at hhas
      exact mapHas_eq_false_iff.1 hhas e h hk
    · exact Or.inl (by simpa using h)

theorem presenceInv_addPresence {m : PresenceMap} (hm : PresenceInv m)
    (u : UserId) (s : SessionId) : PresenceInv (addPresence m u s) := by
  intro e he
  unfold addPresence at he
  rcases mem_mapSet he with h | ⟨h1, _⟩
  · subst h
    exact setAdd_ne_nil _ _
  · by_cases hc : mapHas m u = true
    · simp only [if_pos hc] at h1
      exact hm e h1
    · simp only [if_neg hc] at h1
      rcases mem_mapSet h1 with h | ⟨h2, _⟩
      · subst h
        simp_all
      · exact hm e h2

theorem presenceInv_removePresence {m : PresenceMap} (hm : PresenceInv m)
    (u : UserId) (s : SessionId) : PresenceInv (removePresence m u s) := by
  intro e he
  unfold removePresence at he
  split at he
  · split at he
    · exact hm e (List.mem_of_mem_filter he)
    · rcases mem_mapSet he with h | ⟨h1, _⟩
      · subst h
        simp_all
      · exact hm e h1
  · exact hm e he

theorem presenceInv_applyEvent {m : PresenceMap} (hm : PresenceInv m) (e : PEvent) :
    PresenceInv (applyEvent m e) := by
  cases e with
  | connect u s => exact presenceInv_addPresence hm u s
  | disconnect u s => exact presenceInv_removePresence hm u s

theorem presenceInv_applyEvents {m : PresenceMap} (hm : PresenceInv m) (es : List PEvent) :
    PresenceInv (applyEvents m es) := by
  induction es generalizing m with
  | nil => exact hm
  | cons e es ih => exact ih (presenceInv_applyEvent hm e)

/-- C3: starting from the empty map, every sequence of `addPresence` /
`removePresence` operations preserves the invariant that a subjectId key is
present exactly when its session set is non-empty (keys never map to an empty
set, and absent keys have no sessions, i.e. `mapGet` returns the empty set);
in particular removing the last session deletes the entry. -/
theorem presence_map_invariant (es : List PEvent) :
    (∀ e ∈ applyEvents [] es, e.2 ≠ []) ∧
    (∀ u, mapHas (applyEvents [] es) u = false → mapGet (applyEvents [] es) u = []) := by
  constructor
  · exact presenceInv_applyEvents (fun e he => absurd he (List.not_mem_nil e)) es
  · intro u hu
    exact mapGet_eq_nil_of_mapHas hu

/-! ## C4: online iff an outstanding connect exists; addPresence idempotent -/

theorem mem_setAdd_self (l : List SessionId) (s : SessionId) : s ∈ setAdd l s := by
  unfold setAdd
  split
  · assumption
  · simp

theorem mem_setAdd_iff {l : List SessionId} {x s : SessionId} (h : x ≠ s) :
    x ∈ setAdd l s ↔ x ∈ l := by
  unfold setAdd
  split
  · exact Iff.rfl
  · simp [h]

theorem not_mem_setDelete_self (l : List SessionId) (s : SessionId) : s ∉ setDelete l s := by
  simp [setDelete]

theorem mem_setDelete_iff {l : List SessionId} {x s : SessionId} (h : x ≠ s) :
    x ∈ setDelete l s ↔ x ∈ l := by
  simp [setDelete, h]

theorem mapHas_addPresence_self (m : PresenceMap) (u : UserId) (s : SessionId) :
    mapHas (addPresence m u s) u = true := by
  unfold addPresence
  exact mapHas_mapSet_self _ _ _

theorem mapGet_addPresence_self (m : PresenceMap) (u : UserId) (s : SessionId) :
    mapGet (addPresence m u s) u = setAdd (mapGet m u) s := by
  unfold addPresence
  by_cases h : mapHas m u = true
  · simp only [h, if_true]
    exact mapGet_mapSet_self _ _ _
  · have hf : mapHas m u = false := by simpa using h
    simp only [hf, Bool.false_eq_true, if_false]
    rw [mapGet_mapSet_self, mapGet_mapSet_self, mapGet_eq_nil_of_mapHas hf]

theorem mapGet_addPresence_other (m : PresenceMap) {u w : UserId} (s : SessionId)
    (h : w ≠ u) : mapGet (addPresence m u s) w = mapGet m w := by
  unfold addPresence
  by_cases hc : mapHas m u = true
  · simp only [hc, if_true]
    exact mapGet_mapSet_other _ _ h
  · have hf : mapHas m u = false := by simpa using hc
    simp only [hf, Bool.false_eq_true, if_false]
    rw [mapGet_mapSet_other _ _ h, mapGet_mapSet_other _ _ h]

theorem mapGet_removePresence_self (m : PresenceMap) (u : UserId) (s : SessionId) :
    mapGet (removePresence m u s) u = setDelete (mapGet m u) s := by
  unfold removePresence
  by_cases hc : mapHas m u = true
  · simp only [hc, if_true]
    by_cases hr : setDelete (mapGet m u) s = []
    · simp [hr, mapGet_mapDelete_self]
    · simp [hr, mapGet_mapSet_self]
  · have hf : mapHas m u = false := by simpa using hc
    simp [hc, mapGet_eq_nil_of_mapHas hf, setDelete]

theorem mapGet_removePresence_other (m : PresenceMap) {u w : UserId} (s : SessionId)
    (h : w ≠ u) : mapGet (removePresence m u s) w = mapGet m w := by
  unfold removePresence
  by_cases hc : mapHas m u = true
  · simp only [hc, if_true]
    split
    · exact mapGet_mapDelete_other _ h
    · exact mapGet_mapSet_other _ _ h
  · simp [hc]

/-- The truth value of "the last connect / disconnect event for `(u, s)` in
the sequence is a connect", starting from `b` for the empty sequence. -/
def lastMark (b : Bool) (es : List PEvent) (u : UserId) (s : SessionId) : Bool :=
  es.foldl (fun acc e =>
    if e = PEvent.connect u s then true
    else if e = PEvent.disconnect u s then false
    else acc) b

theorem lastMark_append_single (b : Bool) (es : List PEvent) (e : PEvent)
    (u : UserId) (s : SessionId) :
    lastMark b (es ++ [e]) u s =
      (if e = PEvent.connect u s then true
       else if e = PEvent.disconnect u s then false
       else lastMark b es u s) := by
  unfold lastMark
  rw [List.foldl_append]
  rfl

theorem decide_mem_applyEvents (es : List PEvent) (m : PresenceMap)
    (u : UserId) (s : SessionId) :
    decide (s ∈ mapGet (applyEvents m es) u) =
      lastMark (decide (s ∈ mapGet m u)) es u s := by
  induction es generalizing m with
  | nil => rfl
  | cons e es ih =>
    have hstep : decide (s ∈ mapGet (applyEvent m e) u) =
        (if e = PEvent.connect u s then true
         else if e = PEvent.disconnect u s then false
         else decide (s ∈ mapGet m u)) := by
      cases e with
      | connect a b =>
        by_cases hu : a = u
        · subst hu
          by_cases hs : b = s
          · subst hs
            simp [applyEvent, mapGet_addPresence_self, mem_setAdd_self]
          · have hbs : s ≠ b := fun hh => hs hh.symm
            simp [applyEvent, mapGet_addPresence_self, hs, mem_setAdd_iff hbs]
        · have hwu : u ≠ a := fun hh => hu hh.symm
          simp [applyEvent, mapGet_addPresence_other _ _ hwu, hu]
      | disconnect a b =>
        by_cases hu : a = u
        · subst hu
          by_cases hs : b = s
          · subst hs
            simp [applyEvent, mapGet_removePresence_self, not_mem_setDelete_self]
          · have hbs : s ≠ b := fun hh => hs hh.symm
            simp [applyEvent, mapGet_removePresence_self, hs, mem_setDelete_iff hbs]
        · have hwu : u ≠ a := fun hh => hu hh.symm
          simp [applyEvent, mapGet_removePresence_other _ _ hwu, hu]
    show decide (s ∈ mapGet (applyEvents (applyEvent m e) es) u) = _
    rw [ih, hstep]
    rfl

/-- The spec-side notion for C4: a `connect u s` event occurs in the sequence
with no matching `disconnect u s` occurring after it. -/
def Outstanding (es : List PEvent) (u : UserId) (s : SessionId) : Prop :=
  ∃ l1 l2, es = l1 ++ PEvent.connect u s :: l2 ∧ PEvent.disconnect u s ∉ l2

theorem lastMark_false_iff_outstanding (es : List PEvent) (u : UserId) (s : SessionId) :
    lastMark false es u s = true ↔ Outstanding es u s := by
  induction es using List.reverseRecOn with
  | nil =>
    simp only [Outstanding]
    constructor
    · intro h
      cases h
    · rintro ⟨l1, l2, heq, -⟩
      exact absurd heq.symm (List.append_ne_nil_of_right_ne_nil l1 (by simp))
  | append_singleton es e ih =>
    rw [lastMark_append_single]
    by_cases hc : e = PEvent.connect u s
    · subst hc
      simp only [if_pos rfl, true_iff]
      constructor
      · intro _
        exact ⟨es, [], by simp, by simp⟩
      · intro _
        rfl
    · by_cases hd : e = PEvent.disconnect u s
      · subst hd
        have hne : (PEvent.disconnect u s : PEvent) ≠ PEvent.connect u s := by
          intro hh
          cases hh
        rw [if_neg hne, if_pos rfl]
        constructor
        · intro h
          cases h
        · rintro ⟨l1, l2, heq, hnot⟩
          exfalso
          rcases l2.eq_nil_or_concat with rfl | ⟨l2x, x, hl2⟩
          · have h1 := congrArg List.getLast? heq
            rw [List.getLast?_concat] at h1
            rw [show l1 ++ [PEvent.connect u s] = l1 ++ [PEvent.connect u s] from rfl,
              List.getLast?_concat] at h1
            exact hne (Option.some.inj h1)
          · rw [List.concat_eq_append] at hl2
            subst hl2
            have h1 := congrArg List.getLast? heq
            rw [List.getLast?_concat] at h1
            rw [show l1 ++ PEvent.connect u s :: (l2x ++ [x]) =
                (l1 ++ PEvent.connect u s :: l2x) ++ [x] by simp] at h1
            rw [List.getLast?_concat] at h1
            have hx : PEvent.disconnect u s = x := Option.some.inj h1
            exact hnot (by rw [hx]; simp)
      · rw [if_neg hc, if_neg hd, ih]
        constructor
        · rintro ⟨l1, l2, heq, hnot⟩
          refine ⟨l1, l2 ++ [e], by simp [heq], ?_⟩
          intro hmem
          rcases List.mem_append.1 hmem with hm | hm
          · exact hnot hm
          · simp only [List.mem_singleton] at hm
            exact hd hm.symm
        · rintro ⟨l1, l2, heq, hnot⟩
          rcases l2.eq_nil_or_concat with rfl | ⟨l2x, x, hl2⟩
          · exfalso
            have h1 := congrArg List.getLast? heq
            rw [List.getLast?_concat, List.getLast?_concat] at h1
            exact hc (Option.some.inj h1)
          · rw [List.concat_eq_append] at hl2
            subst hl2
            have h1 := congrArg List.getLast? heq
            rw [List.getLast?_concat] at h1
            rw [show l1 ++ PEvent.connect u s :: (l2x ++ [x]) =
                (l1 ++ PEvent.connect u s :: l2x) ++ [x] by simp] at h1
            rw [List.getLast?_concat] at h1
            have hx : e = x := Option.some.inj h1
            subst hx
            have heq2 : es = l1 ++ PEvent.connect u s :: l2x := by
              have h3 : es ++ [e] = (l1 ++ PEvent.connect u s :: l2x) ++ [e] := by
                rw [heq]
                simp
              exact List.append_cancel_right h3
            exact ⟨l1, l2x, heq2, fun hm => hnot (List.mem_append.2 (Or.inl hm))⟩

theorem isOnline_iff_exists_session {m : PresenceMap} (hm : PresenceInv m) (u : UserId) :
    isOnline m u = true ↔ ∃ s, s ∈ mapGet m u := by
  constructor
  · intro h
    obtain ⟨e, hmem, _, hg⟩ := mapHas_exists_entry h
    obtain ⟨s, hs⟩ := List.exists_mem_of_ne_nil e.2 (hm e hmem)
    exact ⟨s, hg ▸ hs⟩
  · rintro ⟨s, hs⟩
    by_contra h
    have hf : mapHas m u = false := by simpa [isOnline] using h
    rw [mapGet_eq_nil_of_mapHas hf] at hs
    exact absurd hs (List.not_mem_nil s)

theorem mapSet_get_self {m : PresenceMap} {u : UserId}
    (hh : mapHas m u = true) (h : ∀ e ∈ m, e.1 = u → e = (u, mapGet m u)) :
    mapSet m u (mapGet m u) = m := by
  unfold mapSet
  rw [if_pos hh]
  rw [show m.map (fun e => if e.1 = u then (u, mapGet m u) else e) = m.map id from
    List.map_congr_left (by
      intro a ha
      by_cases hk : a.1 = u
      · simp [hk, (h a ha hk).symm]
      · simp [hk]), List.map_id]

theorem addPresence_idem (m : PresenceMap) (u : UserId) (s : SessionId) :
    addPresence (addPresence m u s) u s = addPresence m u s := by
  have hhas := mapHas_addPresence_self m u s
  have hmem : s ∈ mapGet (addPresence m u s) u := by
    rw [mapGet_addPresence_self]
    exact mem_setAdd_self _ _
  have hent : ∀ e ∈ addPresence m u s, e.1 = u → e = (u, mapGet (addPresence m u s) u) := by
    intro e he hk
    unfold addPresence at he ⊢
    rcases mem_mapSet he with h | ⟨_, hne⟩
    · rw [mapGet_mapSet_self]
      exact h
    · exact absurd hk hne
  conv_lhs => rw [addPresence]
  rw [if_pos hhas]
  rw [show setAdd (mapGet (addPresence m u s) u) s = mapGet (addPresence m u s) u from by
    unfold setAdd
    rw [if_pos hmem]]
  exact mapSet_get_self hhas hent

/-- C4: starting from the empty presence map, a subject `u` is reported online
(its key exists in `onlineUsers`) exactly when some connect event for `u` has
no matching later disconnect; and `addPresence` is idempotent: applying it
twice with the same `(subjectId, sessionId)` pair equals applying it once. -/
theorem online_iff_outstanding_and_addPresence_idem :
    (∀ (es : List PEvent) (u : UserId),
      isOnline (applyEvents [] es) u = true ↔ ∃ s, Outstanding es u s) ∧
    (∀ (m : PresenceMap) (u : UserId) (s : SessionId),
      addPresence (addPresence m u s) u s = addPresence m u s) := by
  constructor
  · intro es u
    have hinv : PresenceInv (applyEvents [] es) :=
      presenceInv_applyEvents (fun e he => absurd he (List.not_mem_nil e)) es
    rw [isOnline_iff_exists_session hinv]
    apply exists_congr
    intro s
    rw [← lastMark_false_iff_outstanding]
    have h1 := decide_mem_applyEvents es [] u s
    have h2 : decide (s ∈ mapGet ([] : PresenceMap) u) = false := by
      simp [mapGet]
    rw [h2] at h1
    rw [← h1]
    exact ⟨fun h => by simpa using h, fun h => by simpa using h⟩
  · exact addPresence_idem

/-! ## Revocation store (token blacklist) and auth middleware

`server.mjs` keeps either an in-memory `Map` from token to expiry timestamp
(`inMemoryBlacklist`, checked with `.has`, physically cleaned by a 60-second
`setInterval` sweep) or, when Redis is configured, per-key `SETEX` entries
under `blacklist:<token>` (whose expiry Redis enforces at read time). -/

/-- A token-to-expiry map (JS `Map` / Redis keyspace), association list with
JS `Map.set` replace-or-append semantics. -/
abbrev Blacklist := List (String × Nat)

def blHas : Blacklist → String → Bool
  | [], _ => false
  | e :: m, t => e.1 == t || blHas m t

def blGet : Blacklist → String → Option Nat
  | [], _ => none
  | e :: m, t => if e.1 = t then some e.2 else blGet m t

def blSet (bl : Blacklist) (t : String) (exp : Nat) : Blacklist :=
  if blHas bl t then bl.map (fun p => if p.1 = t then (t, exp) else p)
  else bl ++ [(t, exp)]

/-- `blacklistToken` (in-memory branch): `inMemoryBlacklist.set(token, Date.now() + ttlSeconds * 1000)`. -/
def blacklistTokenMem (bl : Blacklist) (token : String) (now ttlSeconds : Nat) : Blacklist :=
  blSet bl token (now + ttlSeconds * 1000)

/-- The in-memory revocation check actually performed by the code:
`inMemoryBlacklist.has(token)` — a pure membership test that never looks at
the stored expiry timestamp or at the current time. -/
def isRevokedMem (bl : Blacklist) (token : String) : Bool :=
  blHas bl token

/-- The periodic sweep:
`for ([t, exp] of inMemoryBlacklist) if (exp <= now) delete t`. -/
def sweepMem (bl : Blacklist) (now : Nat) : Blacklist :=
  bl.filter (fun p => ¬ (p.2 ≤ now))

/-- `blacklistToken` (Redis branch): `SETEX blacklist:<token> ttlSeconds "1"`,
i.e. the key is stored with expiry `now + ttlSeconds` (Redis tracks seconds;
we keep milliseconds for uniformity with the in-memory variant). -/
def blacklistTokenRedis (bl : Blacklist) (token : String) (now ttlSeconds : Nat) : Blacklist :=
  blSet bl ("blacklist:" ++ token) (now + ttlSeconds * 1000)

/-- Redis `GET` at read time `now`: an entry whose expiry has passed is
treated as absent even if it has not been physically evicted. -/
def redisGet (bl : Blacklist) (key : String) (now : Nat) : Option Nat :=
  match blGet bl key with
  | some exp => if now < exp then some exp else none
  | none => none

/-- The Redis-variant revocation check: `await redisClient.get("blacklist:" + token)`
is truthy. -/
def isRevokedRedis (bl : Blacklist) (token : String) (now : Nat) : Bool :=
  (redisGet bl ("blacklist:" ++ token) now).isSome

theorem blHas_eq_false_iff {bl : Blacklist} {t : String} :
    blHas bl t = false ↔ ∀ e ∈ bl, e.1 ≠ t := by
  induction bl with
  | nil => simp [blHas]
  | cons e m ih => simp [blHas, ih]

theorem blHas_append_single (bl : Blacklist) (t : String) (exp : Nat) :
    blHas (bl ++ [(t, exp)]) t = true := by
  induction bl with
  | nil => simp [blHas]
  | cons e m ih => simp [blHas, ih]

theorem blHas_blSet_self (bl : Blacklist) (t : String) (exp : Nat) :
    blHas (blSet bl t exp) t = true := by
  unfold blSet
  split
  · rename_i h
    induction bl with
    | nil => simp [blHas] at h
    | cons e m ih =>
      by_cases he : e.1 = t
      · simp [blHas, he]
      · simp only [blHas, Bool.or_eq_true, beq_iff_eq, he, false_or] at h
        simp [blHas, he, ih h]
  · exact blHas_append_single bl t exp

theorem blGet_blSet_self (bl : Blacklist) (t : String) (exp : Nat) :
    blGet (blSet bl t exp) t = some exp := by
  unfold blSet
  split
  · rename_i h
    induction bl with
    | nil => simp [blHas] at h
    | cons e m ih =>
      by_cases he : e.1 = t
      · simp [blGet, he]
      · simp only [blHas, Bool.or_eq_true, beq_iff_eq, he, false_or] at h
        simp [blGet, he, ih h]
  · rename_i h
    induction bl with
    | nil => simp [blGet]
    | cons e m ih =>
      simp only [blHas, Bool.or_eq_true, beq_iff_eq, not_or] at h
      simp [blGet, h.1, ih (by simp [h.2])]

theorem mem_blSet {bl : Blacklist} {t : String} {exp : Nat} {p : String × Nat}
    (hp : p ∈ blSet bl t exp) : p = (t, exp) ∨ (p ∈ bl ∧ p.1 ≠ t) := by
  unfold blSet at hp
  split at hp
  · rcases List.mem_map.1 hp with ⟨a, ha, hae⟩
    by_cases h : a.1 = t
    · simp only [if_pos h] at hae
      exact Or.inl hae.symm
    · simp only [if_neg h] at hae
      exact Or.inr ⟨hae ▸ ha, hae ▸ h⟩
  · rcases List.mem_append.1 hp with h | h
    · rename_i hhas
      refine Or.inr ⟨h, fun hk => ?_⟩
      simp only [Bool.not_eq_true] at hhas
      exact blHas_eq_false_iff.1 hhas p h hk
    · exact Or.inl (by simpa using h)

theorem blHas_sweepMem {bl : Blacklist} {t : String} {now : Nat}
    (h : ∀ p ∈ bl, p.1 = t → p.2 ≤ now) :
    blHas (sweepMem bl now) t = false := by
  induction bl with
  | nil => rfl
  | cons e m ih =>
    simp only [sweepMem, List.filter_cons] at *
    by_cases he : e.2 ≤ now
    · simp only [he, not_true, decide_False, if_false]
      exact ih (fun p hp hpt => h p (List.mem_cons_of_mem e hp) hpt)
    · simp only [he, not_false_iff, decide_True, if_true, blHas, Bool.or_eq_false_iff]
      refine ⟨?_, ih (fun p hp hpt => h p (List.mem_cons_of_mem e hp) hpt)⟩
      rw [beq_eq_false_iff_ne]
      intro hk
      exact he (h e (List.mem_cons_self e m) hk)

theorem blHas_sweepMem_keep {bl : Blacklist} {t : String} {now : Nat}
    (h : ∃ p ∈ bl, p.1 = t ∧ ¬ p.2 ≤ now) :
    blHas (sweepMem bl now) t = true := by
  obtain ⟨p, hp, hpt, hpe⟩ := h
  induction bl with
  | nil => exact absurd hp (List.not_mem_nil p)
  | cons e m ih =>
    simp only [sweepMem, List.filter_cons] at *
    rcases List.mem_cons.1 hp with rfl | hp2
    · simp [hpe, blHas, hpt]
    · by_cases he : ¬ (e.2 ≤ now)
      · simp only [he, decide_True, if_true, blHas, Bool.or_eq_true]
        exact Or.inr (ih hp2)
      · simp only [not_not] at he
        simp only [he, not_true, decide_False, if_false]
        exact ih hp2

theorem blGet_eq_some_mem {bl : Blacklist} {t : String} {v : Nat}
    (h : blGet bl t = some v) : (t, v) ∈ bl := by
  induction bl with
  | nil => cases h
  | cons e m ih =>
    by_cases he : e.1 = t
    · simp only [blGet, if_pos he] at h
      have : e = (t, v) := by
        cases e
        simp_all
      exact this ▸ List.mem_cons_self e m
    · simp only [blGet, if_neg he] at h
      exact List.mem_cons_of_mem e (ih h)

/-- C1's counterexample data: token "tok" is revoked at time 0 with a 1-second
TTL, so `revokedUntil = 1000` ms; at check time 2000 (strictly after
`revokedUntil`) and with no sweep having run, the in-memory variant still
reports the token revoked, because `isRevoked` is `Map.has` — a pure
membership test with no check-time comparison against the stored expiry.
The claim requires `isRevoked` to be false here. -/
theorem inMemory_isRevoked_ignores_expiry :
    0 + 1 * 1000 < 2000 ∧
    isRevokedMem (blacklistTokenMem [] "tok" 0 1) "tok" = true := by
  constructor
  · decide
  · rfl

/-- C1 (amended): after `revoke`, `isRevoked` is immediately true in both
variants; the durable (Redis) variant stops reporting the token revoked,
without any sweep, exactly when the check time reaches the stored expiry
(check-time comparison); the in-memory variant keeps reporting it revoked
until the periodic sweep physically deletes expired entries — a sweep at or
after `revokedUntil` removes the entry (then `isRevoked` is false), while a
sweep before `revokedUntil` keeps it (and `isRevoked` stays true). -/
theorem revocation_lifecycle (bl : Blacklist) (token : String)
    (now ttl t1 t2 : Nat) :
    isRevokedMem (blacklistTokenMem bl token now ttl) token = true ∧
    (now + ttl * 1000 ≤ t1 →
      isRevokedMem (sweepMem (blacklistTokenMem bl token now ttl) t1) token = false) ∧
    (t1 < now + ttl * 1000 →
      isRevokedMem (sweepMem (blacklistTokenMem bl token now ttl) t1) token = true) ∧
    (t2 < now + ttl * 1000 →
      isRevokedRedis (blacklistTokenRedis bl token now ttl) token t2 = true) ∧
    (now + ttl * 1000 ≤ t2 →
      isRevokedRedis (blacklistTokenRedis bl token now ttl) token t2 = false) := by
  have hset := blGet_blSet_self bl token (now + ttl * 1000)
  have hsetR := blGet_blSet_self bl ("blacklist:" ++ token) (now + ttl * 1000)
  refine ⟨blHas_blSet_self bl token _, ?_, ?_, ?_, ?_⟩
  · intro h1
    apply blHas_sweepMem
    intro p hp hpt
    rcases mem_blSet hp with rfl | ⟨_, hne⟩
    · exact h1
    · exact absurd hpt hne
  · intro h1
    apply blHas_sweepMem_keep
    exact ⟨(token, now + ttl * 1000), blGet_eq_some_mem hset, rfl, by omega⟩
  · intro h2
    unfold isRevokedRedis redisGet blacklistTokenRedis
    rw [hsetR]
    simp [h2]
  · intro h2
    unfold isRevokedRedis redisGet blacklistTokenRedis
    rw [hsetR]
    simp [Nat.not_lt.2 h2]

/-! ## C2: order of revocation check vs. credential verification -/

/-- Outcome of the REST `auth` middleware in server.mjs. -/
inductive AuthResult where
  | missingToken
  | tokenRevoked
  | invalidToken
  | granted (payload : String)
deriving DecidableEq, Repr

/-- The `auth` middleware, in-memory blacklist variant: extract the token
(`""` models a missing one), consult the blacklist, and only then call
`jwt.verify`. `verify` abstracts `jwt.verify`: `none` models a thrown error
(malformed, bad signature, or expired) caught as "Invalid or expired token". -/
def authMiddleware (bl : Blacklist) (token : String)
    (verify : String → Option String) : AuthResult :=
  if token = "" then .missingToken
  else if isRevokedMem bl token then .tokenRevoked
  else
    match verify token with
    | some payload => .granted payload
    | none => .invalidToken

/-- Outcome of the Socket.IO handshake middleware `io.use(...)`. -/
inductive SocketAuthResult where
  | noToken
  | tokenRevoked
  | invalidToken
  | accepted (payload : String)
deriving DecidableEq, Repr

/-- The connection-handshake middleware, in-memory blacklist variant: same
order — blacklist lookup first, `jwt.verify` second. -/
def socketAuth (bl : Blacklist) (token : String)
    (verify : String → Option String) : SocketAuthResult :=
  if token = "" then .noToken
  else if isRevokedMem bl token then .tokenRevoked
  else
    match verify token with
    | some payload => .accepted payload
    | none => .invalidToken

/-- C2's counterexample: token "t" is blacklisted and also fails verification
(`verify` returns `none`, i.e. `jwt.verify` would throw).  Both the REST
middleware and the socket handshake answer the token-revoked error, not the
invalid-credential error the claim requires — the blacklist is consulted
before signature/expiry verification, not strictly after it. -/
theorem auth_revocation_before_verify_cex :
    authMiddleware [("t", 1000)] "t" (fun _ => none) = .tokenRevoked ∧
    authMiddleware [("t", 1000)] "t" (fun _ => none) ≠ .invalidToken ∧
    socketAuth [("t", 1000)] "t" (fun _ => none) = .tokenRevoked ∧
    socketAuth [("t", 1000)] "t" (fun _ => none) ≠ .invalidToken := by
  refine ⟨rfl, ?_, rfl, ?_⟩
  · intro h
    cases h
  · intro h
    cases h

/-- C2 (amended): on every authenticated operation (REST request and
real-time handshake) the revocation check runs before signature/expiry
verification: a present, blacklisted token is rejected with the
token-revoked error regardless of whether it verifies; verification is only
consulted for non-blacklisted tokens, yielding the invalid-credential error
on failure and access on success. -/
theorem auth_check_order (bl : Blacklist) (token : String)
    (verify : String → Option String) (payload : String) :
    (token ≠ "" → isRevokedMem bl token = true →
      authMiddleware bl token verify = .tokenRevoked ∧
      socketAuth bl token verify = .tokenRevoked) ∧
    (token ≠ "" → isRevokedMem bl token = false → verify token = none →
      authMiddleware bl token verify = .invalidToken ∧
      socketAuth bl token verify = .invalidToken) ∧
    (token ≠ "" → isRevokedMem bl token = false → verify token = some payload →
      authMiddleware bl token verify = .granted payload ∧
      socketAuth bl token verify = .accepted payload) := by
  refine ⟨?_, ?_, ?_⟩
  · intro ht hr
    constructor
    · simp [authMiddleware, ht, hr]
    · simp [socketAuth, ht, hr]
  · intro ht hr hv
    constructor
    · simp [authMiddleware, ht, hr, hv]
    · simp [socketAuth, ht, hr, hv]
  · intro ht hr hv
    constructor
    · simp [authMiddleware, ht, hr, hv]
    · simp [socketAuth, ht, hr, hv]

/-! ## Message pipeline: `POST /messages`, `GET /messages/:chatId`,
`PUT /messages/:chatId/seen`, `POST /chats/ensure`

Texts are modelled as `List Char` so that JS `String.prototype.trim` can be
rendered structurally. -/

/-- The whitespace class recognised by JS `String.prototype.trim`
(the common ASCII subset). -/
def isJsWs (c : Char) : Bool :=
  c == ' ' || c == '\t' || c == '\n' || c == '\r' || c == '\x0b' || c == '\x0c'

/-- JS `String.prototype.trim`: drop whitespace from both ends. -/
def jsTrim (l : List Char) : List Char :=
  ((l.dropWhile isJsWs).reverse.dropWhile isJsWs).reverse

theorem mem_dropWhile_of_not_ws {l : List Char} {c : Char}
    (hc : c ∈ l) (hw : isJsWs c = false) : c ∈ l.dropWhile isJsWs := by
  induction l with
  | nil => cases hc
  | cons a t ih =>
    by_cases ha : isJsWs a = true
    · rw [List.dropWhile_cons_of_pos ha]
      rcases List.mem_cons.1 hc with rfl | hc2
      · rw [hw] at ha
        cases ha
      · exact ih hc2
    · rw [List.dropWhile_cons_of_neg ha]
      exact hc

theorem jsTrim_eq_nil_iff {l : List Char} :
    jsTrim l = [] ↔ ∀ c ∈ l, isJsWs c = true := by
  unfold jsTrim
  rw [List.reverse_eq_nil_iff, List.dropWhile_eq_nil_iff]
  constructor
  · intro h c hc
    by_contra hw
    have h1 : c ∈ l.dropWhile isJsWs :=
      mem_dropWhile_of_not_ws hc (Bool.not_eq_true _ ▸ hw)
    have h2 : c ∈ (l.dropWhile isJsWs).reverse := List.mem_reverse.2 h1
    exact hw (h c h2)
  · intro h c hc
    exact h c ((List.dropWhile_sublist isJsWs).subset (List.mem_reverse.1 hc))

theorem mem_jsTrim_of_not_ws {l : List Char} {c : Char}
    (hc : c ∈ l) (hw : isJsWs c = false) : c ∈ jsTrim l := by
  unfold jsTrim
  rw [List.mem_reverse]
  exact mem_dropWhile_of_not_ws (List.mem_reverse.2 (mem_dropWhile_of_not_ws hc hw)) hw

theorem jsTrim_jsTrim_ne_nil {l : List Char} (h : jsTrim l ≠ []) :
    jsTrim (jsTrim l) ≠ [] := by
  intro h2
  apply h
  rw [jsTrim_eq_nil_iff] at h2 ⊢
  intro c hc
  by_contra hw
  have hmem : c ∈ jsTrim l := mem_jsTrim_of_not_ws hc (Bool.not_eq_true _ ▸ hw)
  exact hw (h2 c hmem)

/-- A message document.  The mongoose `Message` schema (not among the
sources; its shape is fixed by every read/write site and by the spec entity
`{chatId, senderId, receiverId, text, createdAt, seen}`) with `seen`
defaulting to false on creation. -/
structure Msg where
  chatId : String
  sender : String
  receiver : String
  text : List Char
  createdAt : Nat
  seen : Bool
deriving DecidableEq, Repr

/-- A socket event payload fanned out by `POST /messages`. -/
inductive SEvent where
  | messageNew (m : Msg)
  | chatUpdated (chatId : String) (lastMessage : List Char) (occurredAt : Nat)
deriving DecidableEq, Repr

/-- One side effect of the handler, in program order. -/
inductive Effect where
  | persistMessage (m : Msg)
  | updateChat (chatId : String) (lastMessage : List Char) (updatedAt : Nat)
  | emit (channel : String) (ev : SEvent)
deriving DecidableEq, Repr

inductive SendResult where
  | validationError (status : Nat)
  | created (m : Msg)
deriving DecidableEq, Repr

/-- `POST /messages`: validate `{chatId, receiver, text}` (JS falsiness —
a missing field arrives as `""` / `[]`; text must also be non-blank after
trimming), then in order: `Message.create` with the trimmed text,
`Chat.findByIdAndUpdate` of the summary, and the four `io.to(...).emit`
fan-out calls. The returned trace records those effects in program order. -/
def sendMessage (chatId receiver : String) (text : List Char)
    (senderId : String) (now : Nat) : SendResult × List Effect :=
  if chatId = "" ∨ receiver = "" ∨ text = [] ∨ jsTrim text = [] then
    (.validationError 400, [])
  else
    (.created ⟨chatId, senderId, receiver, jsTrim text, now, false⟩,
     [.persistMessage ⟨chatId, senderId, receiver, jsTrim text, now, false⟩,
      .updateChat chatId (jsTrim text) now,
      .emit receiver (.messageNew ⟨chatId, senderId, receiver, jsTrim text, now, false⟩),
      .emit senderId (.messageNew ⟨chatId, senderId, receiver, jsTrim text, now, false⟩),
      .emit receiver (.chatUpdated chatId (jsTrim text) now),
      .emit senderId (.chatUpdated chatId (jsTrim text) now)])

/-- C5: in every successful `sendMessage` the trace starts with the
persistence of the message, followed by the chat-summary update, and only
then the emissions — `message:new` and `chat:updated` each to both the
receiver's and the sender's channel; every emitted `message:new` carries
exactly the message persisted at the head of the trace, so no `message:new`
is emitted for a message that was not recorded first. -/
theorem sendMessage_persist_before_fanout (chatId receiver : String)
    (text : List Char) (senderId : String) (now : Nat) (msg : Msg)
    (tr : List Effect)
    (h : sendMessage chatId receiver text senderId now = (.created msg, tr)) :
    (∃ rest, tr = .persistMessage msg :: .updateChat chatId msg.text now :: rest ∧
      ∀ e ∈ rest, ∃ ch ev, e = .emit ch ev) ∧
    .emit receiver (.messageNew msg) ∈ tr ∧
    .emit senderId (.messageNew msg) ∈ tr ∧
    .emit receiver (.chatUpdated chatId msg.text now) ∈ tr ∧
    .emit senderId (.chatUpdated chatId msg.text now) ∈ tr ∧
    (∀ ch m2, .emit ch (.messageNew m2) ∈ tr → m2 = msg) := by
  unfold sendMessage at h
  split at h
  · exfalso
    have h1 := congrArg Prod.fst h
    simp at h1
  · have h1 := congrArg Prod.fst h
    have h2 := congrArg Prod.snd h
    simp only [] at h1 h2
    injection h1 with h1
    subst h1
    subst h2
    refine ⟨⟨_, rfl, ?_⟩, by simp, by simp, by simp, by simp, ?_⟩
    · intro e he
      simp only [List.mem_cons, List.not_mem_nil, or_false] at he
      rcases he with rfl | rfl | rfl | rfl
      all_goals exact ⟨_, _, rfl⟩
    · intro ch m2 hm
      simp only [List.mem_cons, List.not_mem_nil, or_false] at hm
      rcases hm with hm | hm | hm | hm | hm | hm
      all_goals simp at hm
      all_goals exact hm.2

/-- C9: `sendMessage` rejects any submission whose text is empty after
trimming with HTTP 400 and no side effects (nothing persisted, no chat
update, no emission), and no execution of `sendMessage` ever persists a
message whose stored text trims to the empty string. -/
theorem sendMessage_blank_text_rejected :
    (∀ (chatId receiver : String) (text : List Char) (senderId : String)
      (now : Nat), jsTrim text = [] →
      sendMessage chatId receiver text senderId now = (.validationError 400, [])) ∧
    (∀ (chatId receiver : String) (text : List Char) (senderId : String)
      (now : Nat) (r : SendResult) (tr : List Effect) (m : Msg),
      sendMessage chatId receiver text senderId now = (r, tr) →
      .persistMessage m ∈ tr → jsTrim m.text ≠ []) := by
  constructor
  · intro chatId receiver text senderId now ht
    unfold sendMessage
    rw [if_pos (Or.inr (Or.inr (Or.inr ht)))]
  · intro chatId receiver text senderId now r tr m h hm
    unfold sendMessage at h
    split at h
    · have h2 := congrArg Prod.snd h
      simp only [] at h2
      rw [← h2] at hm
      exact absurd hm (List.not_mem_nil _)
    · rename_i hc
      push_neg at hc
      have h2 := congrArg Prod.snd h
      simp only [] at h2
      rw [← h2] at hm
      simp only [List.mem_cons, List.not_mem_nil, or_false] at hm
      rcases hm with hm | hm | hm | hm | hm | hm
      all_goals simp at hm
      all_goals (rw [hm]; exact jsTrim_jsTrim_ne_nil hc.2.2.2)

/-- C10: every successful `sendMessage` stores as the message text exactly
the submitted text with surrounding whitespace removed, and that same
trimmed text is what the chat-summary update and all emitted `message:new` /
`chat:updated` payloads carry — the raw untrimmed input is never stored or
broadcast. -/
theorem sendMessage_trims_text (chatId receiver : String) (text : List Char)
    (senderId : String) (now : Nat) (msg : Msg) (tr : List Effect)
    (h : sendMessage chatId receiver text senderId now = (.created msg, tr)) :
    msg.text = jsTrim text ∧
    (∀ cid lm t, .updateChat cid lm t ∈ tr → lm = jsTrim text) ∧
    (∀ ch m2, .emit ch (.messageNew m2) ∈ tr → m2.text = jsTrim text) ∧
    (∀ ch cid lm t, .emit ch (.chatUpdated cid lm t) ∈ tr → lm = jsTrim text) := by
  unfold sendMessage at h
  split at h
  · exfalso
    have h1 := congrArg Prod.fst h
    simp at h1
  · have h1 := congrArg Prod.fst h
    have h2 := congrArg Prod.snd h
    simp only [] at h1 h2
    injection h1 with h1
    subst h1
    subst h2
    refine ⟨rfl, ?_, ?_, ?_⟩
    · intro cid lm t hm
      simp only [List.mem_cons, List.not_mem_nil, or_false] at hm
      rcases hm with hm | hm | hm | hm | hm | hm
      all_goals simp at hm
      all_goals exact hm.2.1
    · intro ch m2 hm
      simp only [List.mem_cons, List.not_mem_nil, or_false] at hm
      rcases hm with hm | hm | hm | hm | hm | hm
      all_goals simp at hm
      all_goals rw [hm.2]
    · intro ch cid lm t hm
      simp only [List.mem_cons, List.not_mem_nil, or_false] at hm
      rcases hm with hm | hm | hm | hm | hm | hm
      all_goals simp at hm
      all_goals exact hm.2.2.1

/-! ## C7: `PUT /messages/:chatId/seen` (`Message.updateMany`) -/

/-- The `updateMany` filter `{ chatId, receiver: subjectId, seen: false }`. -/
def seenMatch (chatId uid : String) (m : Msg) : Bool :=
  m.chatId == chatId && m.receiver == uid && m.seen == false

/-- The store after `updateMany(filter, { $set: { seen: true } })`. -/
def markSeenStore (store : List Msg) (chatId uid : String) : List Msg :=
  store.map (fun m => if seenMatch chatId uid m then { m with seen := true } else m)

/-- The `modifiedCount` reported back as `updated` (every matched document
has `seen = false` and is set to `true`, so matched = modified). -/
def markSeenCount (store : List Msg) (chatId uid : String) : Nat :=
  (store.filter (seenMatch chatId uid)).length

theorem seenMatch_markSeen_elt (chatId uid : String) (m : Msg) :
    seenMatch chatId uid
      (if seenMatch chatId uid m then { m with seen := true } else m) = false := by
  by_cases h : seenMatch chatId uid m = true
  · simp only [h, if_true]
    simp [seenMatch]
  · simp only [Bool.not_eq_true] at h
    simp [h]

/-- C7: `markSeen` flips `seen` to true exactly for the messages of the chat
addressed to the subject that are currently unseen (position by position:
matched messages become their seen-true copy — a genuine change, since
`seen` was false — and every other message is returned unchanged), reports
the number of matched-and-changed messages, and is idempotent: an immediate
second call changes nothing and reports 0. -/
theorem markSeen_spec (store : List Msg) (chatId uid : String) :
    List.Forall₂ (fun m m2 =>
      (seenMatch chatId uid m = true → m2 = { m with seen := true } ∧ m2 ≠ m) ∧
      (seenMatch chatId uid m = false → m2 = m))
      store (markSeenStore store chatId uid) ∧
    markSeenCount store chatId uid =
      (store.filter (fun m => seenMatch chatId uid m)).length ∧
    markSeenStore (markSeenStore store chatId uid) chatId uid =
      markSeenStore store chatId uid ∧
    markSeenCount (markSeenStore store chatId uid) chatId uid = 0 := by
  refine ⟨?_, rfl, ?_, ?_⟩
  · induction store with
    | nil => exact List.Forall₂.nil
    | cons m t ih =>
      refine List.Forall₂.cons ?_ ih
      constructor
      · intro hm
        simp only [hm, if_true]
        refine ⟨by trivial, ?_⟩
        intro he
        have hseen : m.seen = false := by
          simp only [seenMatch, Bool.and_eq_true, beq_iff_eq] at hm
          exact hm.2
        have : ({ m with seen := true } : Msg).seen = m.seen := by rw [he]
        rw [hseen] at this
        cases this
      · intro hm
        simp [hm]
  · unfold markSeenStore
    rw [List.map_map]
    apply List.map_congr_left
    intro m _
    simp only [Function.comp_apply]
    rw [if_neg (by rw [seenMatch_markSeen_elt]; exact Bool.false_ne_true)]
  · unfold markSeenCount
    rw [show (markSeenStore store chatId uid).filter (seenMatch chatId uid) = [] from ?_]
    · rfl
    · rw [List.filter_eq_nil_iff]
      intro m hm
      unfold markSeenStore at hm
      rcases List.mem_map.1 hm with ⟨a, _, rfl⟩
      rw [seenMatch_markSeen_elt]
      exact Bool.false_ne_true

/-! ## C6: `GET /messages/:chatId` (history pagination) -/

/-- `.sort({ createdAt: -1 })` comparison: newer or equally new first. -/
def newerFirst (a b : Msg) : Prop := b.createdAt ≤ a.createdAt

instance : DecidableRel newerFirst := fun a b => Nat.decLe b.createdAt a.createdAt

instance : IsTotal Msg newerFirst :=
  ⟨fun a b => Or.symm (Nat.le_total a.createdAt b.createdAt)⟩

instance : IsTrans Msg newerFirst :=
  ⟨fun _ _ _ hab hbc => Nat.le_trans hbc hab⟩

/-- `Math.min(Number(limit) || 50, 100)`: a missing or zero (or unparseable)
limit falls back to 50; the result is capped at 100. -/
def effLimit (limit : Option Nat) : Nat :=
  min (match limit with
       | none => 50
       | some l => if l = 0 then 50 else l) 100

/-- The mongo query `{ chatId, createdAt: { $lt: before } }`. -/
def msgQuery (chatId : String) (before : Option Nat) (m : Msg) : Bool :=
  m.chatId == chatId &&
    (match before with
     | none => true
     | some b => m.createdAt < b)

/-- `GET /messages/:chatId`: filter by chat (and `before`, strictly), sort
descending by `createdAt`, take the effective limit, and answer in ascending
order (`messages.reverse()`). -/
def listMessages (store : List Msg) (chatId : String) (before : Option Nat)
    (limit : Option Nat) : List Msg :=
  (((store.filter (msgQuery chatId before)).insertionSort newerFirst).take
      (effLimit limit)).reverse

theorem listMessages_sorted (store : List Msg) (chatId : String)
    (before limit : Option Nat) :
    List.Sorted (fun a b : Msg => a.createdAt ≤ b.createdAt)
      (listMessages store chatId before limit) := by
  unfold listMessages
  rw [List.Sorted, List.pairwise_reverse]
  exact List.Pairwise.sublist (List.take_sublist _ _)
    (List.sorted_insertionSort newerFirst _)

theorem mem_listMessages {store : List Msg} {chatId : String}
    {before limit : Option Nat} {m : Msg}
    (hm : m ∈ listMessages store chatId before limit) :
    m ∈ store ∧ m.chatId = chatId ∧
      (∀ b, before = some b → m.createdAt < b) := by
  unfold listMessages at hm
  rw [List.mem_reverse] at hm
  have h1 := List.mem_of_mem_take hm
  rw [List.mem_insertionSort] at h1
  have h2 := List.mem_filter.1 h1
  refine ⟨h2.1, ?_, ?_⟩
  · have := h2.2
    simp only [msgQuery, Bool.and_eq_true, beq_iff_eq] at this
    exact this.1
  · intro b hb
    have := h2.2
    rw [hb] at this
    simp only [msgQuery, Bool.and_eq_true, decide_eq_true_eq] at this
    exact this.2

/-- C6's counterexample: with `limit = 0` supplied, `Number(limit) || 50`
falls back to the default 50, so a one-message chat yields 1 message — more
than the `min(limit, 100) = 0` bound the claim asserts for every supplied
limit. -/
theorem listMessages_limit_zero_cex :
    (listMessages [⟨"c", "a", "b", ['h'], 5, false⟩] "c" none (some 0)).length = 1 ∧
    ¬ ((listMessages [⟨"c", "a", "b", ['h'], 5, false⟩] "c" none
        (some 0)).length ≤ min 0 100) := by
  constructor
  · rfl
  · decide

/-- C6 (amended): `listMessages` returns at most `min(limit, 100)` messages
for a positive supplied limit and at most the default 50 when the limit is
absent or zero, ascending by `createdAt`; with `before` supplied every
returned message is strictly older than `before`; and re-querying with
`before` set to the earliest previously returned timestamp yields only
strictly older messages that overlap nowhere with the first page, and leaves
no gap between the pages: every chat message strictly older than the first
page is either in the second page, or the second page is full (its length is
the effective limit) and the message is at least as old as everything in it
— i.e. it fell off the far end, to be reached by later pages, with nothing
between the two pages skipped. (The calls see the same store: the claim's
no-concurrent-writes assumption.) -/
theorem listMessages_spec (store : List Msg) (chatId : String)
    (before limit : Option Nat) :
    (listMessages store chatId before limit).length ≤ effLimit limit ∧
    (∀ l, l ≠ 0 → effLimit (some l) = min l 100) ∧
    effLimit none = 50 ∧ effLimit (some 0) = 50 ∧
    List.Sorted (fun a b : Msg => a.createdAt ≤ b.createdAt)
      (listMessages store chatId before limit) ∧
    (∀ b, before = some b →
      ∀ m ∈ listMessages store chatId before limit, m.createdAt < b) ∧
    (∀ m ∈ listMessages store chatId before limit,
      m ∈ store ∧ m.chatId = chatId) ∧
    (∀ m0 rest,
      listMessages store chatId before limit = m0 :: rest →
      (∀ m2 ∈ listMessages store chatId (some m0.createdAt) limit,
        (∀ m1 ∈ m0 :: rest, m2.createdAt < m1.createdAt) ∧
        m2 ∉ m0 :: rest) ∧
      (∀ m ∈ store, m.chatId = chatId → m.createdAt < m0.createdAt →
        m ∈ listMessages store chatId (some m0.createdAt) limit ∨
        ((listMessages store chatId (some m0.createdAt) limit).length =
            effLimit limit ∧
          ∀ m2 ∈ listMessages store chatId (some m0.createdAt) limit,
            m.createdAt ≤ m2.createdAt))) := by
  refine ⟨?_, ?_, rfl, rfl, listMessages_sorted store chatId before limit, ?_, ?_, ?_⟩
  · unfold listMessages
    rw [List.length_reverse, List.length_take]
    exact min_le_left _ _
  · intro l hl
    simp [effLimit, hl]
  · intro b hb m hm
    exact (mem_listMessages hm).2.2 b hb
  · intro m hm
    exact ⟨(mem_listMessages hm).1, (mem_listMessages hm).2.1⟩
  · intro m0 rest heq
    have hmono : ∀ m1 ∈ m0 :: rest, m0.createdAt ≤ m1.createdAt := by
      have hs := listMessages_sorted store chatId before limit
      rw [heq, List.sorted_cons] at hs
      intro m1 hm1
      rcases List.mem_cons.1 hm1 with rfl | hm1
      · exact Nat.le_refl _
      · exact hs.1 m1 hm1
    constructor
    · intro m2 hm2
      have hlt : m2.createdAt < m0.createdAt :=
        (mem_listMessages hm2).2.2 m0.createdAt rfl
      refine ⟨fun m1 hm1 => Nat.lt_of_lt_of_le hlt (hmono m1 hm1), fun hin => ?_⟩
      exact Nat.lt_irrefl _ (Nat.lt_of_lt_of_le hlt (hmono m2 hin))
    · intro m hmem hchat hlt
      by_cases hin : m ∈ listMessages store chatId (some m0.createdAt) limit
      · exact Or.inl hin
      · refine Or.inr ?_
        have hmq : m ∈ store.filter (msgQuery chatId (some m0.createdAt)) := by
          rw [List.mem_filter]
          exact ⟨hmem, by simp [msgQuery, hchat, hlt]⟩
        have hms : m ∈ (store.filter (msgQuery chatId (some m0.createdAt))).insertionSort
            newerFirst := (List.mem_insertionSort newerFirst).2 hmq
        have hmtake : m ∉ ((store.filter (msgQuery chatId
            (some m0.createdAt))).insertionSort newerFirst).take (effLimit limit) := by
          intro hc
          exact hin (by
            unfold listMessages
            rw [List.mem_reverse]
            exact hc)
        have hmdrop : m ∈ ((store.filter (msgQuery chatId
            (some m0.createdAt))).insertionSort newerFirst).drop (effLimit limit) := by
          have hsplit : m ∈ ((store.filter (msgQuery chatId
              (some m0.createdAt))).insertionSort newerFirst).take (effLimit limit) ++
              ((store.filter (msgQuery chatId
                (some m0.createdAt))).insertionSort newerFirst).drop (effLimit limit) := by
            rw [List.take_append_drop]
            exact hms
          rcases List.mem_append.1 hsplit with hc | hc
          · exact absurd hc hmtake
          · exact hc
        have hfull : (listMessages store chatId (some m0.createdAt) limit).length =
            effLimit limit := by
          have hne : ((store.filter (msgQuery chatId
              (some m0.createdAt))).insertionSort newerFirst).drop
              (effLimit limit) ≠ [] := by
            intro hc
            rw [hc] at hmdrop
            exact absurd hmdrop (List.not_mem_nil m)
          have hlen : effLimit limit ≤ ((store.filter (msgQuery chatId
              (some m0.createdAt))).insertionSort newerFirst).length := by
            by_contra hcon
            exact hne (List.drop_eq_nil_iff.2 (Nat.le_of_lt (Nat.lt_of_not_le hcon)))
          unfold listMessages
          rw [List.length_reverse, List.length_take]
          exact Nat.min_eq_left hlen
        refine ⟨hfull, fun m2 hm2 => ?_⟩
        have hm2take : m2 ∈ ((store.filter (msgQuery chatId
            (some m0.createdAt))).insertionSort newerFirst).take (effLimit limit) := by
          unfold listMessages at hm2
          rw [List.mem_reverse] at hm2
          exact hm2
        have hp : List.Pairwise newerFirst
            ((store.filter (msgQuery chatId (some m0.createdAt))).insertionSort
              newerFirst) := List.sorted_insertionSort newerFirst _
        rw [← List.take_append_drop (effLimit limit)
          ((store.filter (msgQuery chatId (some m0.createdAt))).insertionSort
            newerFirst)] at hp
        exact (List.pairwise_append.1 hp).2.2 m2 hm2take m hmdrop

/-! ## C8: `POST /chats/ensure` -/

/-- A chat document (`Chat` model: `participants` array and `lastMessage`;
server timestamps elided). -/
structure ChatDoc where
  id : Nat
  participants : List String
  lastMessage : List Char
deriving DecidableEq, Repr

/-- Mongo `{ participants: { $all: [a, b] } }`: the array contains both ids. -/
def chatMatchesAll (a b : String) (c : ChatDoc) : Bool :=
  c.participants.contains a && c.participants.contains b

/-- `Chat.findOne({ participants: { $all: [a, b] } })`: first match. -/
def findChat (store : List ChatDoc) (a b : String) : Option ChatDoc :=
  store.find? (chatMatchesAll a b)

/-- `POST /chats/ensure`: return the found chat unchanged, else create
`{ participants: [a, b], lastMessage: "" }`. -/
def ensureChat (store : List ChatDoc) (a b : String) (newId : Nat) :
    ChatDoc × List ChatDoc :=
  match findChat store a b with
  | some c => (c, store)
  | none => (⟨newId, [a, b], []⟩, store ++ [⟨newId, [a, b], []⟩])

/-- The participant pair of a chat equals the unordered pair `{a, b}`. -/
def PairEq (l : List String) (a b : String) : Prop :=
  l = [a, b] ∨ l = [b, a]

theorem chatMatchesAll_comm (a b : String) (c : ChatDoc) :
    chatMatchesAll a b c = chatMatchesAll b a c := by
  unfold chatMatchesAll
  rw [Bool.and_comm]

theorem findChat_comm (store : List ChatDoc) (a b : String) :
    findChat store a b = findChat store b a := by
  unfold findChat
  induction store with
  | nil => rfl
  | cons c t ih =>
    by_cases h : chatMatchesAll a b c = true
    · rw [List.find?_cons_of_pos _ h,
        List.find?_cons_of_pos _ (chatMatchesAll_comm a b c ▸ h)]
    · have h2 : ¬ chatMatchesAll b a c = true := fun hh =>
        h (chatMatchesAll_comm a b c ▸ hh)
      rw [List.find?_cons_of_neg _ h, List.find?_cons_of_neg _ h2]
      exact ih

theorem findChat_append_single {store : List ChatDoc} {a b : String}
    (h : findChat store a b = none) (c : ChatDoc) :
    findChat (store ++ [c]) a b =
      if chatMatchesAll a b c then some c else none := by
  unfold findChat at h ⊢
  induction store with
  | nil =>
    simp only [List.nil_append]
    by_cases hc : chatMatchesAll a b c = true
    · rw [List.find?_cons_of_pos _ hc, if_pos hc]
    · rw [List.find?_cons_of_neg _ hc, if_neg hc]
      rfl
  | cons d t ih =>
    by_cases hd : chatMatchesAll a b d = true
    · rw [List.find?_cons_of_pos _ hd] at h
      cases h
    · rw [List.find?_cons_of_neg _ hd] at h
      simp only [List.cons_append]
      rw [List.find?_cons_of_neg _ hd]
      exact ih h

theorem chatMatchesAll_new (a b : String) (i : Nat) :
    chatMatchesAll a b ⟨i, [a, b], []⟩ = true := by
  simp [chatMatchesAll]

theorem chatMatchesAll_iff_pairEq {a b : String} {c : ChatDoc} (hab : a ≠ b)
    (hwf : ∃ x y, c.participants = [x, y]) :
    chatMatchesAll a b c = true ↔ PairEq c.participants a b := by
  obtain ⟨x, y, hxy⟩ := hwf
  unfold chatMatchesAll PairEq
  rw [hxy]
  constructor
  · intro h
    simp only [Bool.and_eq_true, List.contains, List.elem_iff, List.mem_cons,
      List.mem_singleton, List.not_mem_nil, or_false] at h
    obtain ⟨ha, hb⟩ := h
    rcases ha with rfl | rfl
    · rcases hb with rfl | rfl
      · exact absurd rfl hab
      · exact Or.inl rfl
    · rcases hb with rfl | rfl
      · exact Or.inr rfl
      · exact absurd rfl hab
  · intro h
    rcases h with h | h <;>
      · injection h with h1 h2
        injection h2 with h2 h3
        subst h1
        subst h2
        simp [List.contains, List.elem_iff]

/-- C8's counterexample: the store holds a single chat between "A" and "C"
(a state reachable by `ensureChat(A, C)` from empty); no chat whose
participant pair is `{A, A}` exists, yet `ensureChat(A, A)` creates nothing
— the `$all: [A, A]` lookup matches the `[A, C]` chat (it only asks that the
array contain "A" twice over) and returns it, a chat whose pair is not
`{A, A}`. The claim requires exactly one new chat with participants
`{A, A}` to be created here. -/
theorem ensureChat_self_pair_cex :
    (∀ c ∈ [(⟨1, ["A", "C"], []⟩ : ChatDoc)], c.participants ≠ ["A", "A"]) ∧
    (ensureChat [⟨1, ["A", "C"], []⟩] "A" "A" 2).2 = [⟨1, ["A", "C"], []⟩] ∧
    (ensureChat [⟨1, ["A", "C"], []⟩] "A" "A" 2).1.participants ≠ ["A", "A"] := by
  refine ⟨?_, rfl, ?_⟩ <;> decide

/-- C8 (amended): the lookup is by unordered pair (`ensureChat(B, A)` finds
the same chat), `ensureChat` is idempotent under sequential calls, and — for
two distinct participants over a store whose chats all have two-element
participant arrays — if a chat with participant pair `{a, b}` exists it is
returned with the store unchanged, else exactly one new chat with
participants `[a, b]` is appended. (When the two arguments coincide, the
`$all` lookup degenerates and may return a chat of a different pair, which
is what the counterexample exhibits.) -/
theorem ensureChat_spec (store : List ChatDoc) (a b : String) (i j : Nat) :
    findChat store a b = findChat store b a ∧
    ensureChat (ensureChat store a b i).2 a b j =
      ((ensureChat store a b i).1, (ensureChat store a b i).2) ∧
    (a ≠ b → (∀ c ∈ store, ∃ x y, c.participants = [x, y]) →
      ((∃ c ∈ store, PairEq c.participants a b) →
        (ensureChat store a b i).2 = store ∧
        (ensureChat store a b i).1 ∈ store ∧
        PairEq (ensureChat store a b i).1.participants a b) ∧
      ((∀ c ∈ store, ¬ PairEq c.participants a b) →
        (ensureChat store a b i).2 = store ++ [⟨i, [a, b], []⟩] ∧
        (ensureChat store a b i).1.participants = [a, b])) := by
  refine ⟨findChat_comm store a b, ?_, ?_⟩
  · cases hf : findChat store a b with
    | some c =>
      unfold ensureChat
      simp only [hf]
    | none =>
      unfold ensureChat
      simp only [hf, findChat_append_single hf, chatMatchesAll_new, if_true]
  · intro hab hwf
    constructor
    · intro hex
      obtain ⟨c, hc, hpc⟩ := hex
      have hsome : (store.find? (chatMatchesAll a b)).isSome := by
        rw [List.find?_isSome]
        exact ⟨c, hc, (chatMatchesAll_iff_pairEq hab (hwf c hc)).2 hpc⟩
      cases hf : findChat store a b with
      | none =>
        unfold findChat at hf
        rw [hf] at hsome
        cases hsome
      | some c2 =>
        have hc2mem : c2 ∈ store := List.mem_of_find?_eq_some hf
        have hc2p : chatMatchesAll a b c2 = true := List.find?_some hf
        unfold ensureChat
        rw [hf]
        exact ⟨rfl, hc2mem, (chatMatchesAll_iff_pairEq hab (hwf c2 hc2mem)).1 hc2p⟩
    · intro hnone
      have hf : findChat store a b = none := by
        unfold findChat
        rw [List.find?_eq_none]
        intro c hc hh
        exact hnone c hc ((chatMatchesAll_iff_pairEq hab (hwf c hc)).1 hh)
      unfold ensureChat
      rw [hf]
      exact ⟨rfl, rfl⟩

/-! ## Witnesses: the theorems evaluated at concrete inputs -/

/-- Sample messages of one chat with distinct timestamps 1, 2, 3. -/
def sampleA : Msg := ⟨"c", "x", "y", ['a'], 1, false⟩

def sampleB : Msg := ⟨"c", "x", "y", ['a'], 2, false⟩

def sampleC : Msg := ⟨"c", "x", "y", ['a'], 3, false⟩

theorem presence_map_invariant_witness :
    (∀ e ∈ applyEvents [] [PEvent.connect "u1" "s1", PEvent.disconnect "u1" "s1"],
      e.2 ≠ []) ∧
    mapGet (applyEvents [] [PEvent.connect "u1" "s1", PEvent.disconnect "u1" "s1"])
      "u1" = [] :=
  ⟨(presence_map_invariant [PEvent.connect "u1" "s1", PEvent.disconnect "u1" "s1"]).1,
   (presence_map_invariant [PEvent.connect "u1" "s1", PEvent.disconnect "u1" "s1"]).2
     "u1" (by decide)⟩

theorem revocation_lifecycle_witness :
    isRevokedMem (blacklistTokenMem [] "t" 0 1) "t" = true ∧
    isRevokedMem (sweepMem (blacklistTokenMem [] "t" 0 1) 1000) "t" = false ∧
    isRevokedMem (sweepMem (blacklistTokenMem [] "t" 0 1) 999) "t" = true ∧
    isRevokedRedis (blacklistTokenRedis [] "t" 0 1) "t" 500 = true ∧
    isRevokedRedis (blacklistTokenRedis [] "t" 0 1) "t" 1000 = false :=
  ⟨(revocation_lifecycle [] "t" 0 1 0 0).1,
   (revocation_lifecycle [] "t" 0 1 1000 0).2.1 (by decide),
   (revocation_lifecycle [] "t" 0 1 999 0).2.2.1 (by decide),
   (revocation_lifecycle [] "t" 0 1 0 500).2.2.2.1 (by decide),
   (revocation_lifecycle [] "t" 0 1 0 1000).2.2.2.2 (by decide)⟩

theorem auth_check_order_witness :
    authMiddleware [("t", 5)] "t" (fun _ => some "p") = .tokenRevoked ∧
    authMiddleware [("t", 5)] "u" (fun _ => none) = .invalidToken ∧
    authMiddleware [("t", 5)] "u" (fun _ => some "p") = .granted "p" ∧
    socketAuth [("t", 5)] "u" (fun _ => some "p") = .accepted "p" :=
  ⟨((auth_check_order [("t", 5)] "t" (fun _ => some "p") "p").1
      (by decide) (by decide)).1,
   ((auth_check_order [("t", 5)] "u" (fun _ => none) "p").2.1
      (by decide) (by decide) rfl).1,
   ((auth_check_order [("t", 5)] "u" (fun _ => some "p") "p").2.2
      (by decide) (by decide) rfl).1,
   ((auth_check_order [("t", 5)] "u" (fun _ => some "p") "p").2.2
      (by decide) (by decide) rfl).2⟩

theorem sendMessage_persist_before_fanout_witness :
    Effect.emit "b" (SEvent.messageNew ⟨"c", "a", "b", ['h', 'i'], 7, false⟩) ∈
      (sendMessage "c" "b" ['h', 'i'] "a" 7).2 ∧
    Effect.emit "a" (SEvent.chatUpdated "c" ['h', 'i'] 7) ∈
      (sendMessage "c" "b" ['h', 'i'] "a" 7).2 :=
  ⟨(sendMessage_persist_before_fanout "c" "b" ['h', 'i'] "a" 7 _ _ rfl).2.1,
   (sendMessage_persist_before_fanout "c" "b" ['h', 'i'] "a" 7 _ _ rfl).2.2.2.2.1⟩

theorem sendMessage_blank_text_rejected_witness :
    sendMessage "c" "b" [' ', ' '] "a" 7 = (.validationError 400, []) ∧
    jsTrim (jsTrim ['h']) ≠ [] :=
  ⟨sendMessage_blank_text_rejected.1 "c" "b" [' ', ' '] "a" 7 (by decide),
   sendMessage_blank_text_rejected.2 "c" "b" ['h'] "a" 7
     (sendMessage "c" "b" ['h'] "a" 7).1 (sendMessage "c" "b" ['h'] "a" 7).2
     ⟨"c", "a", "b", jsTrim ['h'], 7, false⟩ rfl (by decide)⟩

theorem sendMessage_trims_text_witness :
    (⟨"c", "a", "b", ['h'], 7, false⟩ : Msg).text = jsTrim [' ', 'h', ' '] :=
  (sendMessage_trims_text "c" "b" [' ', 'h', ' '] "a" 7 _ _ rfl).2.2.1 "b"
    ⟨"c", "a", "b", ['h'], 7, false⟩ (by decide)

theorem markSeen_spec_witness :
    markSeenStore (markSeenStore [sampleA] "c" "y") "c" "y" =
      markSeenStore [sampleA] "c" "y" ∧
    markSeenCount (markSeenStore [sampleA] "c" "y") "c" "y" = 0 :=
  ⟨(markSeen_spec [sampleA] "c" "y").2.2.1, (markSeen_spec [sampleA] "c" "y").2.2.2⟩

theorem listMessages_spec_witness :
    effLimit (some 2) = min 2 100 ∧
    sampleA.createdAt < 2 ∧
    sampleA ∉ [sampleB, sampleC] ∧
    sampleA.createdAt < sampleB.createdAt :=
  ⟨(listMessages_spec [sampleA, sampleB, sampleC] "c" none (some 2)).2.1 2 (by decide),
   (listMessages_spec [sampleA, sampleB, sampleC] "c" (some 2) (some 2)).2.2.2.2.2.1
     2 rfl sampleA (by decide),
   (((listMessages_spec [sampleA, sampleB, sampleC] "c" none
       (some 2)).2.2.2.2.2.2.2 sampleB [sampleC] (by decide)).1
     sampleA (by decide)).2,
   ((((listMessages_spec [sampleA, sampleB, sampleC] "c" none
       (some 2)).2.2.2.2.2.2.2 sampleB [sampleC] (by decide)).1
     sampleA (by decide)).1 sampleB (by decide))⟩

theorem ensureChat_spec_witness :
    (ensureChat [⟨1, ["A", "B"], []⟩] "A" "B" 2).2 = [⟨1, ["A", "B"], []⟩] ∧
    PairEq (ensureChat [⟨1, ["A", "B"], []⟩] "A" "B" 2).1.participants "A" "B" ∧
    (ensureChat [] "A" "B" 7).2 = [] ++ [⟨7, ["A", "B"], []⟩] :=
  ⟨(((ensureChat_spec [⟨1, ["A", "B"], []⟩] "A" "B" 2 0).2.2 (by decide)
      (by
        intro c hc
        rw [List.mem_singleton] at hc
        subst hc
        exact ⟨"A", "B", rfl⟩)).1
      ⟨⟨1, ["A", "B"], []⟩, List.mem_singleton.2 rfl, Or.inl rfl⟩).1,
   (((ensureChat_spec [⟨1, ["A", "B"], []⟩] "A" "B" 2 0).2.2 (by decide)
      (by
        intro c hc
        rw [List.mem_singleton] at hc
        subst hc
        exact ⟨"A", "B", rfl⟩)).1
      ⟨⟨1, ["A", "B"], []⟩, List.mem_singleton.2 rfl, Or.inl rfl⟩).2.2,
   (((ensureChat_spec [] "A" "B" 7 0).2.2 (by decide)
      (fun c hc => absurd hc (List.not_mem_nil c))).2
     (fun c hc => absurd hc (List.not_mem_nil c))).1⟩

end UniConnect
